import Mathlib

/-!
# Verification of the niwa-core persistence and graph-integrity layer

A shallow embedding of the `niwa-core` crate: entity CRUD with version
archiving (`storage.rs`), the typed relation graph with its cycle check
(`graph.rs`), and tag-based query composition (`query.rs`).  SQLite tables
are modelled as Lean lists of rows in insertion order; queries are modelled
as list traversals following the SQL text of the source; `chrono::Utc::now()`
is an explicit `now : Int` parameter; fallible operations return
`Except Error _`.
-/

namespace Niwa

/-- The entity scope enum of `types.rs` (`Scope`). -/
inductive Scope
  | Personal
  | Company
  | Project
deriving DecidableEq, Repr

/-- `Scope::as_str` from `types.rs`. -/
def Scope.as_str : Scope → String
  | .Personal => "personal"
  | .Company => "company"
  | .Project => "project"

/-- Serde deserialization of `Scope` (rename_all = lowercase), as used when
parsing the stored JSON payload. -/
def Scope.decode : String → Option Scope
  | "personal" => some Scope.Personal
  | "company" => some Scope.Company
  | "project" => some Scope.Project
  | _ => none

/-- A JSON value as far as the stored entity payload needs: strings, 64-bit
integers and string arrays. -/
inductive JsonVal
  | str (s : String)
  | int (n : Int)
  | arr (xs : List String)
deriving DecidableEq, Repr

/-- A JSON object, modelled as an association list of fields. -/
abbrev Json := List (String × JsonVal)

/-- The entity record of `types.rs`: the flattened pair of the inner
`llm_toolkit_expertise::Expertise` (id, version, tags, description, and the
opaque content payload, collapsed here into `content`) and the NIWA
`ExpertiseMetadata` (scope, created_at, updated_at). -/
structure Expertise where
  id : String
  version : String
  tags : List String
  description : String
  content : String
  scope : Scope
  created_at : Int
  updated_at : Int
deriving DecidableEq, Repr

/-- `Expertise::to_json` from `types.rs`: serde serialization of the
flattened struct into a JSON object. -/
def Expertise.to_json (e : Expertise) : Json :=
  [("id", .str e.id), ("version", .str e.version), ("tags", .arr e.tags),
   ("description", .str e.description), ("content", .str e.content),
   ("scope", .str e.scope.as_str), ("created_at", .int e.created_at),
   ("updated_at", .int e.updated_at)]

/-- Field lookup in a JSON object (first occurrence, as serde does). -/
def findField (j : Json) (k : String) : Option JsonVal :=
  match j with
  | [] => none
  | (k', v) :: rest => if k' = k then some v else findField rest k

def JsonVal.asStr : JsonVal → Option String
  | .str s => some s
  | _ => none

def JsonVal.asInt : JsonVal → Option Int
  | .int n => some n
  | _ => none

def JsonVal.asArr : JsonVal → Option (List String)
  | .arr xs => some xs
  | _ => none

/-- The error enum of `error.rs`, restricted to the variants the embedded
operations produce.  `NotFound`/`AlreadyExists` carry the id and the scope's
display string, as in the source. -/
inductive Error
  | NotFound (id : String) (scope : String)
  | AlreadyExists (id : String) (scope : String)
  | InvalidScope (s : String)
  | InvalidRelationType (s : String)
  | CircularDependency (cfrom : String) (cto : String)
  | Serialization (msg : String)
deriving DecidableEq, Repr

/-- `Expertise::from_json` from `types.rs`: serde deserialization of the
flattened struct; any missing or ill-typed field is a serialization error. -/
def Expertise.from_json (j : Json) : Except Error Expertise :=
  match (do
    let id ← (findField j "id").bind JsonVal.asStr
    let version ← (findField j "version").bind JsonVal.asStr
    let tags ← (findField j "tags").bind JsonVal.asArr
    let description ← (findField j "description").bind JsonVal.asStr
    let content ← (findField j "content").bind JsonVal.asStr
    let scopeStr ← (findField j "scope").bind JsonVal.asStr
    let scope ← Scope.decode scopeStr
    let created_at ← (findField j "created_at").bind JsonVal.asInt
    let updated_at ← (findField j "updated_at").bind JsonVal.asInt
    pure (⟨id, version, tags, description, content, scope, created_at,
      updated_at⟩ : Expertise) : Option Expertise) with
  | some e => .ok e
  | none => .error (.Serialization "invalid expertise payload")

/-- The relation type enum of `graph.rs`. -/
inductive RelationType
  | Uses
  | Extends
  | Conflicts
  | Requires
deriving DecidableEq, Repr

/-- `RelationType::as_str` from `graph.rs`. -/
def RelationType.as_str : RelationType → String
  | .Uses => "uses"
  | .Extends => "extends"
  | .Conflicts => "conflicts"
  | .Requires => "requires"

/-- Whether a relation type is in the SQL list `('uses', 'requires',
'extends')` used by `get_dependencies` / `get_dependents` / `build_graph`. -/
def RelationType.isDependency : RelationType → Bool
  | .Conflicts => false
  | _ => true

/-- A row of the `expertises` table, with the columns bound by
`storage.rs` (`data_json` holds the serialized entity payload). -/
structure EntityRow where
  id : String
  version : String
  scope : Scope
  created_at : Int
  updated_at : Int
  data_json : Json
  description : String
deriving DecidableEq, Repr

/-- A row of the `relations` table (`graph.rs`). -/
structure RelationRow where
  from_id : String
  to_id : String
  rtype : RelationType
  metadata : Option String
  created_at : Int
deriving DecidableEq, Repr

/-- A row of the `versions` table (`storage.rs`). -/
structure VersionRow where
  expertise_id : String
  version : String
  created_at : Int
  data_json : Json
deriving DecidableEq, Repr

/-- The persisted state: the four logical tables of the store, each as a
list of rows in insertion order.  A tag row is an `(expertise_id, tag)`
pair. -/
structure DBState where
  entities : List EntityRow
  tags : List (String × String)
  relations : List RelationRow
  versions : List VersionRow
deriving DecidableEq, Repr

/-- The freshly created store (after migrations, all tables empty). -/
def emptyDB : DBState := ⟨[], [], [], []⟩

/-- The `expertises` row that `Storage::create` inserts for an entity. -/
def mkRow (e : Expertise) : EntityRow :=
  ⟨e.id, e.version, e.scope, e.created_at, e.updated_at, e.to_json,
    e.description⟩

namespace Storage

/-- `Storage::exists`: `SELECT COUNT(*) FROM expertises WHERE id = ? AND
scope = ?`, compared against zero. -/
def existsKey (s : DBState) (id : String) (scope : Scope) : Bool :=
  decide (0 < (s.entities.filter
    (fun r => decide (r.id = id ∧ r.scope = scope))).length)

/-- `Storage::create` from `storage.rs`: fail with `AlreadyExists` if the
key is occupied, otherwise insert the entity row and one tag row per tag. -/
def create (s : DBState) (e : Expertise) : Except Error DBState :=
  if existsKey s e.id e.scope then
    .error (.AlreadyExists e.id e.scope.as_str)
  else
    .ok { s with
      entities := s.entities ++ [mkRow e]
      tags := s.tags ++ e.tags.map (fun t => (e.id, t)) }

/-- `Storage::get` from `storage.rs`: fetch the (first) row with the given
key and deserialize its `data_json`; absence yields `none`. -/
def get (s : DBState) (id : String) (scope : Scope) :
    Except Error (Option Expertise) :=
  match s.entities.find? (fun r => decide (r.id = id ∧ r.scope = scope)) with
  | some r => (Expertise.from_json r.data_json).map some
  | none => .ok none

/-- Modelled from the spec: the `versions` table's unique key is
`(expertise_id, version)` — the migration files defining the schema are not
under `src/`; the spec states snapshots are upserted so that only the latest
save per version string survives.  `INSERT OR REPLACE` therefore drops any
row with the same key before appending the new snapshot. -/
def upsertVersion (vs : List VersionRow) (ex : Expertise) (now : Int) :
    List VersionRow :=
  vs.filter (fun v =>
    decide (¬ (v.expertise_id = ex.id ∧ v.version = ex.version)))
    ++ [⟨ex.id, ex.version, now, ex.to_json⟩]

/-- The `UPDATE expertises SET version, updated_at, data_json, description
WHERE id AND scope` statement of `Storage::update`, applied to one row:
rows under the key get the new columns (with `updated_at` stamped to `now`
by `ExpertiseMetadata::touch` before serialization), other rows are left
alone. -/
def updateRow (e : Expertise) (now : Int) (r : EntityRow) : EntityRow :=
  if r.id = e.id ∧ r.scope = e.scope then
    { r with
      version := e.version
      updated_at := now
      data_json := Expertise.to_json { e with updated_at := now }
      description := e.description }
  else r

/-- The writes `Storage::update` performs after archiving: stamp
`updated_at`, rewrite the entity row's columns under the key, and rebuild
the tag index (delete all tag rows of the id, then insert the new tags). -/
def applyUpdate (s : DBState) (now : Int) (e : Expertise) : DBState :=
  { s with
    entities := s.entities.map (updateRow e now)
    tags := s.tags.filter (fun tg => decide (¬ tg.1 = e.id))
      ++ e.tags.map (fun t => (e.id, t)) }

/-- `Storage::update` from `storage.rs`: fail with `NotFound` if the key is
absent; otherwise read the current stored entity, archive it under its old
version string (`save_version`), then overwrite the row and its tags. -/
def update (s : DBState) (now : Int) (e : Expertise) : Except Error DBState :=
  if existsKey s e.id e.scope then
    match get s e.id e.scope with
    | .error err => .error err
    | .ok none => .ok (applyUpdate s now e)
    | .ok (some existing) =>
        .ok (applyUpdate
          { s with versions := upsertVersion s.versions existing now } now e)
  else
    .error (.NotFound e.id e.scope.as_str)

/-- `Storage::delete` from `storage.rs`, with the cascades modelled from the
spec: the migration files declaring `ON DELETE CASCADE` are not under
`src/`; per the spec, deleting an entity removes its tag rows and any
relation edges touching it.  `NotFound` when zero rows are affected. -/
def delete (s : DBState) (id : String) (scope : Scope) :
    Except Error DBState :=
  if (s.entities.filter
      (fun r => decide (¬ (r.id = id ∧ r.scope = scope)))).length
      = s.entities.length then
    .error (.NotFound id scope.as_str)
  else
    .ok { s with
      entities := s.entities.filter
        (fun r => decide (¬ (r.id = id ∧ r.scope = scope)))
      tags := s.tags.filter (fun tg => decide (¬ tg.1 = id))
      relations := s.relations.filter
        (fun r => decide (¬ (r.from_id = id ∨ r.to_id = id))) }

/-- `Storage::get_version` from `storage.rs`. -/
def get_version (s : DBState) (id version : String) :
    Except Error (Option Expertise) :=
  match s.versions.find?
      (fun v => decide (v.expertise_id = id ∧ v.version = version)) with
  | some v => (Expertise.from_json v.data_json).map some
  | none => .ok none

end Storage

namespace GraphOperations

/-- `GraphOperations::get_dependencies` from `graph.rs`: `SELECT DISTINCT
to_id FROM relations WHERE from_id = ? AND relation_type IN ('uses',
'requires', 'extends')`. -/
def get_dependencies (s : DBState) (id : String) : List String :=
  ((s.relations.filter
    (fun r => decide (r.from_id = id ∧ r.rtype.isDependency = true))).map
      (fun r => r.to_id)).dedup

/-- The worklist loop of `get_reachable_nodes` (`graph.rs`): pop the top of
the stack; skip it if already visited, otherwise mark it visited and push its
unvisited dependency neighbours.  The Rust loop carries no fuel; the `Nat`
argument is the standard fuel encoding, and `reachFuel` below always
suffices for the loop to drain its stack. -/
def reachLoop (s : DBState) : Nat → List String → List String → List String
  | 0, reachable, _ => reachable
  | _ + 1, reachable, [] => reachable
  | fuel + 1, reachable, current :: rest =>
    if current ∈ reachable then
      reachLoop s fuel reachable rest
    else
      let reachable' := current :: reachable
      let pushed := ((get_dependencies s current).filter
        (fun d => decide (d ∉ reachable'))).reverse
      reachLoop s fuel reachable' (pushed ++ rest)

/-- The `to_id`s of all dependency-typed relation rows: every node the
worklist can ever push besides its start node. -/
def candidates (s : DBState) : List String :=
  (s.relations.filter (fun r => r.rtype.isDependency)).map (fun r => r.to_id)

/-- Enough fuel for `reachLoop` to terminate with an empty stack (proved
below): one more than `(edges + 1) * (distinct candidate nodes + 1)`. -/
def reachFuel (s : DBState) : Nat :=
  (s.relations.length + 1) * ((candidates s).dedup.length + 1) + 1

/-- `GraphOperations::get_reachable_nodes` from `graph.rs`. -/
def get_reachable_nodes (s : DBState) (start : String) : List String :=
  reachLoop s (reachFuel s) [] [start]

/-- `GraphOperations::would_create_cycle` from `graph.rs`: the edge
`from → to` is rejected when `from` is already reachable from `to`. -/
def would_create_cycle (s : DBState) (fromId toId : String) : Bool :=
  decide (fromId ∈ get_reachable_nodes s toId)

/-- Modelled from the spec: the `relations` table's primary key is the full
`(from_id, to_id, relation_type)` triple — the migration files defining the
schema are not under `src/`; the spec states `create_relation` upserts on
the full key.  `INSERT OR REPLACE` therefore drops any row with the same key
before appending the new edge. -/
def upsertRelation (rels : List RelationRow) (r : RelationRow) :
    List RelationRow :=
  rels.filter (fun x => decide (¬ (x.from_id = r.from_id ∧
    x.to_id = r.to_id ∧ x.rtype = r.rtype))) ++ [r]

/-- `GraphOperations::create_relation` from `graph.rs`: run the cycle check
first (for every relation type); on failure return `CircularDependency`
without writing, otherwise upsert the edge. -/
def create_relation (s : DBState) (now : Int) (fromId toId : String)
    (t : RelationType) (meta : Option String) : Except Error DBState :=
  if would_create_cycle s fromId toId then
    .error (.CircularDependency fromId toId)
  else
    .ok { s with
      relations := upsertRelation s.relations ⟨fromId, toId, t, meta, now⟩ }

/-- `GraphOperations::delete_relation` from `graph.rs`: unconditional
removal of the specific triple. -/
def delete_relation (s : DBState) (fromId toId : String) (t : RelationType) :
    DBState :=
  { s with relations := s.relations.filter (fun r =>
      decide (¬ (r.from_id = fromId ∧ r.to_id = toId ∧ r.rtype = t))) }

end GraphOperations

/-- One dependency-edge step of the stored relation graph: an edge of type
Uses/Extends/Requires from `u` to `v`. -/
def depStep (s : DBState) (u v : String) : Prop :=
  ∃ r ∈ s.relations, r.from_id = u ∧ r.to_id = v ∧ r.rtype.isDependency = true

/-- Reachability along dependency edges (reflexive-transitive closure of
`depStep`); this is the set `get_reachable_nodes` computes. -/
def DepReach (s : DBState) (u v : String) : Prop :=
  Relation.ReflTransGen (depStep s) u v

/-- Acyclicity of the subgraph of Uses/Extends/Requires edges: no node
reaches itself by a non-empty dependency path. -/
def DepAcyclic (s : DBState) : Prop :=
  ∀ x, ¬ Relation.TransGen (depStep s) x x

/-- The search options of `query.rs` (`SearchOptions`). -/
structure SearchOptions where
  limit : Option Nat := none
  offset : Option Nat := none
  scope : Option Scope := none
  tags : List String := []

namespace QueryBuilder

/-- The optional `AND e.scope = ?` predicate of `filter_by_tags`. -/
def scopeOK (opts : SearchOptions) (r : EntityRow) : Bool :=
  match opts.scope with
  | none => true
  | some sc => decide (r.scope = sc)

/-- The joined rows of `filter_by_tags`'s query: `FROM expertises e INNER
JOIN tags t ON e.id = t.expertise_id WHERE t.tag IN (tags) [AND e.scope =
?]`; each row is the entity row paired with the matched tag. -/
def joinedRows (s : DBState) (ts : List String) (opts : SearchOptions) :
    List (EntityRow × String) :=
  (s.entities.filter (scopeOK opts)).flatMap (fun r =>
    (s.tags.filter (fun tg => decide (tg.1 = r.id ∧ tg.2 ∈ ts))).map
      (fun tg => (r, tg.2)))

/-- The rows of one `GROUP BY e.id` group. -/
def groupFor (rows : List (EntityRow × String)) (id : String) :
    List (EntityRow × String) :=
  rows.filter (fun p => decide (p.1.id = id))

/-- The grouping keys, in first-occurrence order. -/
def groupIds (rows : List (EntityRow × String)) : List String :=
  (rows.map (fun p => p.1.id)).dedup

/-- The `HAVING COUNT(DISTINCT t.tag) = tags.len()` predicate. -/
def havingOK (ts : List String) (grp : List (EntityRow × String)) : Bool :=
  decide (((grp.map (fun p => p.2)).dedup).length = ts.length)

/-- One representative entity row per surviving group (SQLite's bare-column
select under GROUP BY; the model picks the group's first row). -/
def groupReps (rows : List (EntityRow × String)) (ts : List String) :
    List EntityRow :=
  (groupIds rows).filterMap (fun id =>
    if havingOK ts (groupFor rows id) then
      ((groupFor rows id).head?).map (fun p => p.1)
    else none)

/-- The deserialization loop at the end of every query: decode each fetched
`data_json` in order, propagating the first failure. -/
def decodeAll : List Json → Except Error (List Expertise)
  | [] => .ok []
  | j :: js =>
    match Expertise.from_json j with
    | .error err => .error err
    | .ok e =>
      match decodeAll js with
      | .error err => .error err
      | .ok rest => .ok (e :: rest)

/-- `QueryBuilder::filter_by_tags` from `query.rs`: empty tag list yields an
empty result; otherwise join against the tag index, group by entity id,
keep groups matching the distinct-count predicate, order by `updated_at`
descending, deduplicate the selected `data_json` column (`SELECT
DISTINCT`), apply offset/limit, and decode. -/
def filter_by_tags (s : DBState) (ts : List String) (opts : SearchOptions) :
    Except Error (List Expertise) :=
  if ts.isEmpty then .ok []
  else
    let rows := joinedRows s ts opts
    let reps := groupReps rows ts
    let sorted := List.insertionSort
      (fun a b => b.updated_at ≤ a.updated_at) reps
    let jsons := (sorted.map (fun r => r.data_json)).dedup
    let jsons := match opts.offset with
      | some k => jsons.drop k
      | none => jsons
    let jsons := match opts.limit with
      | some n => jsons.take n
      | none => jsons
    decodeAll jsons

end QueryBuilder

/-- A mutating operation of the EntityStore / RelationGraph interface;
read-only operations do not change the state.  `now` arguments stand for
the `chrono::Utc::now()` calls inside the Rust operations. -/
inductive Op
  | createE (e : Expertise)
  | updateE (now : Int) (e : Expertise)
  | deleteE (id : String) (scope : Scope)
  | createRel (now : Int) (fromId toId : String) (t : RelationType)
      (meta : Option String)
  | deleteRel (fromId toId : String) (t : RelationType)

/-- Execute one operation; a failing operation (an `Except.error` result)
leaves the store unchanged. -/
def applyOp (s : DBState) : Op → DBState
  | .createE e =>
    match Storage.create s e with
    | .ok s' => s'
    | .error _ => s
  | .updateE now e =>
    match Storage.update s now e with
    | .ok s' => s'
    | .error _ => s
  | .deleteE id scope =>
    match Storage.delete s id scope with
    | .ok s' => s'
    | .error _ => s
  | .createRel now fromId toId t meta =>
    match GraphOperations.create_relation s now fromId toId t meta with
    | .ok s' => s'
    | .error _ => s
  | .deleteRel fromId toId t => GraphOperations.delete_relation s fromId toId t

/-- Execute a sequence of operations against the freshly created store. -/
def runOps (ops : List Op) : DBState :=
  ops.foldl applyOp emptyDB

/-! Concrete sample data, used to exhibit witnesses and counterexamples. -/

/-- A sample entity in the Personal scope. -/
def eAlpha : Expertise :=
  ⟨"alpha", "1", ["rust", "async"], "desc", "content", .Personal, 1, 1⟩

/-- A second entity sharing `eAlpha`'s id in a different scope. -/
def eAlphaCo : Expertise :=
  ⟨"alpha", "1", ["go"], "desc-co", "content-co", .Company, 3, 3⟩

/-- An entity with a distinct id carrying only the "rust" tag. -/
def eBeta : Expertise :=
  ⟨"beta", "1", ["rust"], "desc-b", "content-b", .Personal, 2, 2⟩

/-- A store holding `eAlpha` alone. -/
def sAlpha : DBState :=
  ⟨[mkRow eAlpha], [("alpha", "rust"), ("alpha", "async")], [], []⟩

/-- A store holding both `eAlpha` and `eAlphaCo` (same id, two scopes). -/
def sAlphaBoth : DBState :=
  ⟨[mkRow eAlpha, mkRow eAlphaCo],
    [("alpha", "rust"), ("alpha", "async"), ("alpha", "go")], [], []⟩

/-- A dependency chain a → b → c of Uses edges. -/
def sChain : DBState :=
  ⟨[], [], [⟨"a", "b", .Uses, none, 0⟩, ⟨"b", "c", .Uses, none, 1⟩], []⟩

/-- An update payload for `eAlpha` carrying a bumped version string and the
same (not advanced) timestamps. -/
def eAlphaV2 : Expertise :=
  ⟨"alpha", "2", ["rust"], "desc2", "content2", .Personal, 1, 1⟩

/-- The operations reaching a store where the Conflicts edge a → b coexists
with the dependency edge b → a (both creations succeed in this order). -/
def conflictOps : List Op :=
  [.createRel 0 "a" "b" .Conflicts none, .createRel 1 "b" "a" .Uses none]

/-- A store holding the single Uses edge a → b. -/
def sEdge : DBState := ⟨[], [], [⟨"a", "b", .Uses, none, 0⟩], []⟩

/-- The store produced by creating each of the given entities: one entity
row and one tag row per tag each, exactly as `Storage.create` writes
them. -/
def stateOf (es : List Expertise) : DBState :=
  ⟨es.map mkRow, es.flatMap (fun e => e.tags.map (fun t => (e.id, t))),
    [], []⟩

open GraphOperations

/-- Serde round trip: decoding a serialized entity yields the entity back. -/
theorem from_json_to_json (e : Expertise) :
    Expertise.from_json e.to_json = .ok e := by
  cases e with
  | mk id version tags description content scope created_at updated_at =>
    cases scope <;>
      simp [Expertise.from_json, Expertise.to_json, findField, Scope.as_str,
        Scope.decode, JsonVal.asStr, JsonVal.asInt, JsonVal.asArr, Option.bind]

/-- Membership in `get_dependencies` is exactly one dependency-edge step. -/
theorem mem_get_dependencies {s : DBState} {id v : String} :
    v ∈ get_dependencies s id ↔ depStep s id v := by
  simp only [get_dependencies, List.mem_dedup, List.mem_map, List.mem_filter,
    decide_eq_true_eq, depStep]
  constructor
  · rintro ⟨r, ⟨hr, hfrom, hdep⟩, hto⟩
    exact ⟨r, hr, hfrom, hto, hdep⟩
  · rintro ⟨r, hr, hfrom, hto, hdep⟩
    exact ⟨r, ⟨hr, hfrom, hdep⟩, hto⟩

theorem get_dependencies_length_le (s : DBState) (id : String) :
    (get_dependencies s id).length ≤ s.relations.length :=
  le_trans (List.Sublist.length_le (List.dedup_sublist _))
    (le_trans (le_of_eq (List.length_map _ _))
      (List.length_filter_le _ _))

theorem mem_candidates_of_depStep {s : DBState} {u v : String}
    (h : depStep s u v) : v ∈ candidates s := by
  obtain ⟨r, hr, _, hto, hdep⟩ := h
  exact List.mem_map.mpr ⟨r, List.mem_filter.mpr ⟨hr, hdep⟩, hto⟩

/-- Every node the worklist loop returns is dependency-reachable from any
node all of its inputs are reachable from. -/
theorem reachLoop_sound (s : DBState) (start : String) :
    ∀ (fuel : Nat) (r tv : List String),
      (∀ x ∈ r, DepReach s start x) → (∀ x ∈ tv, DepReach s start x) →
      ∀ x ∈ reachLoop s fuel r tv, DepReach s start x := by
  intro fuel
  induction fuel with
  | zero => intro r tv hr _ x hx; exact hr x hx
  | succ n ih =>
    intro r tv hr htv x hx
    match tv with
    | [] => exact hr x hx
    | c :: rest =>
      rw [reachLoop] at hx
      split at hx
      · exact ih r rest hr (fun y hy => htv y (List.mem_cons_of_mem _ hy)) x hx
      · refine ih _ _ ?_ ?_ x hx
        · intro y hy
          rcases List.mem_cons.mp hy with h | h
          · exact h ▸ htv c (List.mem_cons_self _ _)
          · exact hr y h
        · intro y hy
          rcases List.mem_append.mp hy with h | h
          · have hdep : y ∈ get_dependencies s c := by
              have := List.mem_reverse.mp h
              exact (List.mem_filter.mp this).1
            exact Relation.ReflTransGen.tail (htv c (List.mem_cons_self _ _))
              (mem_get_dependencies.mp hdep)
          · exact htv y (List.mem_cons_of_mem _ h)

/-- The visited set only grows. -/
theorem reachLoop_mono (s : DBState) :
    ∀ (fuel : Nat) (r tv : List String), r ⊆ reachLoop s fuel r tv := by
  intro fuel
  induction fuel with
  | zero => intro r tv; exact fun _ h => h
  | succ n ih =>
    intro r tv
    match tv with
    | [] => exact fun _ h => h
    | c :: rest =>
      rw [reachLoop]
      split
      · exact ih r rest
      · exact fun x hx => ih _ _ (List.mem_cons_of_mem _ hx)

theorem nodup_subset_length_le {l m : List String} (hn : l.Nodup)
    (hs : l ⊆ m) : l.length ≤ m.dedup.length := by
  have h1 : l.toFinset.card = l.length := List.toFinset_card_of_nodup hn
  have h2 : m.toFinset.card = m.dedup.length := List.card_toFinset m
  have h3 : l.toFinset ⊆ m.toFinset := by
    intro a ha
    exact List.mem_toFinset.mpr (hs (List.mem_toFinset.mp ha))
  calc l.length = l.toFinset.card := h1.symm
    _ ≤ m.toFinset.card := Finset.card_le_card h3
    _ = m.dedup.length := h2

/-- Total correctness of the worklist loop: given enough fuel and the loop
invariants, the result contains the visited set and the stack, and is closed
under dependency steps. -/
theorem reachLoop_complete (s : DBState) (start : String) :
    ∀ (fuel : Nat) (r tv : List String),
      r.Nodup →
      (∀ x ∈ r, x ∈ start :: candidates s) →
      (∀ x ∈ tv, x ∈ start :: candidates s) →
      (∀ u ∈ r, ∀ v ∈ get_dependencies s u, v ∈ r ∨ v ∈ tv) →
      (s.relations.length + 1) *
          ((start :: candidates s).dedup.length - r.length) + tv.length
        ≤ fuel →
      r ⊆ reachLoop s fuel r tv ∧ tv ⊆ reachLoop s fuel r tv ∧
        ∀ u ∈ reachLoop s fuel r tv, ∀ v ∈ get_dependencies s u,
          v ∈ reachLoop s fuel r tv := by
  intro fuel
  induction fuel with
  | zero =>
    intro r tv _ _ _ hclos hfuel
    have htv : tv = [] := by
      have := Nat.le_zero.mp hfuel
      exact List.eq_nil_of_length_eq_zero (by omega)
    subst htv
    refine ⟨fun _ h => h, fun _ h => absurd h (List.not_mem_nil _), ?_⟩
    intro u hu v hv
    rcases hclos u hu v hv with h | h
    · exact h
    · exact absurd h (List.not_mem_nil _)
  | succ n ih =>
    intro r tv hnd hr htv hclos hfuel
    match tv with
    | [] =>
      refine ⟨fun _ h => h, fun _ h => absurd h (List.not_mem_nil _), ?_⟩
      intro u hu v hv
      rcases hclos u hu v hv with h | h
      · exact h
      · exact absurd h (List.not_mem_nil _)
    | c :: rest =>
      by_cases hcr : c ∈ r
      case pos =>
        have hstep : reachLoop s (n + 1) r (c :: rest)
            = reachLoop s n r rest := by
          rw [reachLoop, if_pos hcr]
        rw [hstep]
        have hfuel' : (s.relations.length + 1) *
            ((start :: candidates s).dedup.length - r.length) + rest.length
            ≤ n := by
          simp only [List.length_cons] at hfuel
          omega
        obtain ⟨h1, h2, h3⟩ := ih r rest hnd hr
          (fun y hy => htv y (List.mem_cons_of_mem _ hy))
          (by
            intro u hu v hv
            rcases hclos u hu v hv with h | h
            · exact Or.inl h
            · rcases List.mem_cons.mp h with h' | h'
              · exact Or.inl (h' ▸ hcr)
              · exact Or.inr h')
          hfuel'
        refine ⟨h1, ?_, h3⟩
        intro y hy
        rcases List.mem_cons.mp hy with h | h
        · exact h ▸ h1 hcr
        · exact h2 h
      case neg =>
        set r' := c :: r with hr'def
        set pushed := ((get_dependencies s c).filter
          (fun d => decide (d ∉ r'))).reverse with hpushdef
        have hstep : reachLoop s (n + 1) r (c :: rest)
            = reachLoop s n r' (pushed ++ rest) := by
          rw [reachLoop, if_neg hcr]
        rw [hstep]
        have hndr' : r'.Nodup := List.nodup_cons.mpr ⟨hcr, hnd⟩
        have hmemr' : ∀ x ∈ r', x ∈ start :: candidates s := by
          intro x hx
          rcases List.mem_cons.mp hx with h | h
          · exact h ▸ htv c (List.mem_cons_self _ _)
          · exact hr x h
        have hpushdeps : ∀ y ∈ pushed, y ∈ get_dependencies s c := by
          intro y hy
          exact (List.mem_filter.mp (List.mem_reverse.mp hy)).1
        have hmemtv' : ∀ x ∈ pushed ++ rest, x ∈ start :: candidates s := by
          intro x hx
          rcases List.mem_append.mp hx with h | h
          · exact List.mem_cons_of_mem _
              (mem_candidates_of_depStep (mem_get_dependencies.mp
                (hpushdeps x h)))
          · exact htv x (List.mem_cons_of_mem _ h)
        have hclos' : ∀ u ∈ r', ∀ v ∈ get_dependencies s u,
            v ∈ r' ∨ v ∈ pushed ++ rest := by
          intro u hu v hv
          rcases List.mem_cons.mp hu with h | h
          · subst h
            by_cases hvr : v ∈ r'
            · exact Or.inl hvr
            · refine Or.inr (List.mem_append.mpr (Or.inl ?_))
              exact List.mem_reverse.mpr
                (List.mem_filter.mpr ⟨hv, by simpa using hvr⟩)
          · rcases hclos u h v hv with h' | h'
            · exact Or.inl (List.mem_cons_of_mem _ h')
            · rcases List.mem_cons.mp h' with h'' | h''
              · exact Or.inl (h'' ▸ List.mem_cons_self _ _)
              · exact Or.inr (List.mem_append.mpr (Or.inr h''))
        have hr'len : r'.length ≤ (start :: candidates s).dedup.length :=
          nodup_subset_length_le hndr' hmemr'
        have hfuel' : (s.relations.length + 1) *
            ((start :: candidates s).dedup.length - r'.length)
            + (pushed ++ rest).length ≤ n := by
          have hlen1 : r'.length = r.length + 1 := List.length_cons _ _
          have hlen2 : pushed.length ≤ s.relations.length := by
            calc pushed.length
                ≤ (get_dependencies s c).length := by
                  rw [hpushdef, List.length_reverse]
                  exact List.length_filter_le _ _
              _ ≤ s.relations.length := get_dependencies_length_le s c
          have hsub : (start :: candidates s).dedup.length - r.length
              = ((start :: candidates s).dedup.length - r'.length) + 1 := by
            omega
          rw [hsub, Nat.mul_succ] at hfuel
          simp only [List.length_append, List.length_cons] at hfuel ⊢
          have hB := Nat.le_refl ((s.relations.length + 1) *
            ((start :: candidates s).dedup.length - r'.length))
          generalize (s.relations.length + 1) *
            ((start :: candidates s).dedup.length - r'.length) = B at hfuel ⊢
          omega
        obtain ⟨h1, h2, h3⟩ := ih r' (pushed ++ rest) hndr' hmemr' hmemtv'
          hclos' hfuel'
        refine ⟨?_, ?_, h3⟩
        · exact fun x hx => h1 (List.mem_cons_of_mem _ hx)
        · intro x hx
          rcases List.mem_cons.mp hx with h | h
          · exact h ▸ h1 (List.mem_cons_self _ _)
          · exact h2 (List.mem_append.mpr (Or.inr h))

/-- `get_reachable_nodes` computes exactly dependency reachability: the
frontier traversal of `graph.rs` returns a node iff it is reachable from the
start node along Uses/Extends/Requires edges (the start node included). -/
theorem mem_get_reachable (s : DBState) (start x : String) :
    x ∈ get_reachable_nodes s start ↔ DepReach s start x := by
  constructor
  · intro hx
    refine reachLoop_sound s start (reachFuel s) [] [start]
      (fun y hy => absurd hy (List.not_mem_nil _)) ?_ x hx
    intro y hy
    rcases List.mem_cons.mp hy with h | h
    · exact h ▸ Relation.ReflTransGen.refl
    · exact absurd h (List.not_mem_nil _)
  · intro hreach
    have hN : (start :: candidates s).dedup.length
        ≤ (candidates s).dedup.length + 1 := by
      by_cases hmem : start ∈ candidates s
      · rw [List.dedup_cons_of_mem hmem]; omega
      · rw [List.dedup_cons_of_not_mem hmem, List.length_cons]
    have hfuel : (s.relations.length + 1) *
        ((start :: candidates s).dedup.length - List.length ([] : List String))
          + List.length [start] ≤ reachFuel s := by
      simp only [List.length_nil, List.length_cons, Nat.sub_zero,
        List.length_singleton]
      have := Nat.mul_le_mul_left (s.relations.length + 1) hN
      simp only [reachFuel]
      omega
    obtain ⟨_, h2, h3⟩ := reachLoop_complete s start (reachFuel s) [] [start]
      List.nodup_nil (fun y hy => absurd hy (List.not_mem_nil _))
      (fun y hy => by
        rcases List.mem_cons.mp hy with h | h
        · exact h ▸ List.mem_cons_self _ _
        · exact absurd h (List.not_mem_nil _))
      (fun u hu => absurd hu (List.not_mem_nil _)) hfuel
    have hstart : start ∈ get_reachable_nodes s start :=
      h2 (List.mem_cons_self _ _)
    induction hreach with
    | refl => exact hstart
    | tail _ hstep ihr =>
      exact h3 _ ihr _ (mem_get_dependencies.mpr hstep)

/-- An acyclic relation stays acyclic under any subrelation. -/
theorem acyclic_of_imp {s s' : DBState}
    (h : ∀ a b, depStep s' a b → depStep s a b) (hac : DepAcyclic s) :
    DepAcyclic s' := by
  intro x hx
  exact hac x (Relation.TransGen.mono h hx)

theorem depStep_of_subset {s s' : DBState}
    (h : ∀ r ∈ s'.relations, r ∈ s.relations) :
    ∀ a b, depStep s' a b → depStep s a b := by
  rintro a b ⟨r, hr, hrest⟩
  exact ⟨r, h r hr, hrest⟩

/-- Any non-empty path of the relation extended with the edge `f → t`
either already existed, or passes through the new edge, yielding a pair of
old paths into `f` and out of `t`. -/
theorem transGen_insert {α : Type} {R : α → α → Prop} {f t : α}
    (hnf : ¬ Relation.ReflTransGen R t f) :
    ∀ {a b : α}, Relation.TransGen (fun x y => R x y ∨ (x = f ∧ y = t)) a b →
      Relation.TransGen R a b ∨
        (Relation.ReflTransGen R a f ∧ Relation.ReflTransGen R t b) := by
  intro a b h
  induction h with
  | single hstep =>
    rcases hstep with h | ⟨hf, ht⟩
    · exact Or.inl (Relation.TransGen.single h)
    · exact Or.inr ⟨hf ▸ Relation.ReflTransGen.refl,
        ht ▸ Relation.ReflTransGen.refl⟩
  | tail _ hstep ihp =>
    rcases hstep with h | ⟨hf, ht⟩
    · rcases ihp with ih | ⟨ih1, ih2⟩
      · exact Or.inl (Relation.TransGen.tail ih h)
      · exact Or.inr ⟨ih1, Relation.ReflTransGen.tail ih2 h⟩
    · subst hf; subst ht
      rcases ihp with ih | ⟨ih1, ih2⟩
      · exact Or.inr ⟨ih.to_reflTransGen, Relation.ReflTransGen.refl⟩
      · exact absurd ih2 hnf

/-- Adding an edge `f → t` to an acyclic relation keeps it acyclic as long
as `f` is not reachable from `t`. -/
theorem acyclic_insert {α : Type} {R : α → α → Prop} {f t : α}
    (hac : ∀ x, ¬ Relation.TransGen R x x)
    (hnf : ¬ Relation.ReflTransGen R t f) :
    ∀ x, ¬ Relation.TransGen (fun a b => R a b ∨ (a = f ∧ b = t)) x x := by
  intro x hx
  rcases transGen_insert hnf hx with h | ⟨h1, h2⟩
  · exact hac x h
  · exact hnf (h2.trans h1)

/-- A successful `Storage.create` only appends to `entities` and `tags`. -/
theorem create_ok_state {s : DBState} {e : Expertise} {s' : DBState}
    (h : Storage.create s e = Except.ok s') :
    Storage.existsKey s e.id e.scope = false ∧
      s' = { s with
        entities := s.entities ++ [mkRow e]
        tags := s.tags ++ e.tags.map (fun t => (e.id, t)) } := by
  unfold Storage.create at h
  split at h
  · exact absurd h (by simp)
  case isFalse hk =>
    exact ⟨by simpa using hk, (Except.ok.inj h).symm⟩

/-- A successful `Storage.update` leaves the `relations` table alone. -/
theorem update_ok_relations {s : DBState} {now : Int} {e : Expertise}
    {s' : DBState} (h : Storage.update s now e = Except.ok s') :
    s'.relations = s.relations := by
  unfold Storage.update at h
  split at h
  · split at h
    · exact absurd h (by simp)
    · rcases Except.ok.inj h with rfl; rfl
    · rcases Except.ok.inj h with rfl; rfl
  · exact absurd h (by simp)

/-- A successful `Storage.delete` deletes the matching entity rows, the
id's tag rows, and every relation edge touching the id. -/
theorem delete_ok_state {s : DBState} {id : String} {scope : Scope}
    {s' : DBState} (h : Storage.delete s id scope = Except.ok s') :
    s' = { s with
      entities := s.entities.filter
        (fun r => decide (¬ (r.id = id ∧ r.scope = scope)))
      tags := s.tags.filter (fun tg => decide (¬ tg.1 = id))
      relations := s.relations.filter
        (fun r => decide (¬ (r.from_id = id ∨ r.to_id = id))) } := by
  unfold Storage.delete at h
  split at h
  · exact absurd h (by simp)
  · exact (Except.ok.inj h).symm

/-- A successful `create_relation` passed its cycle check and upserted the
edge. -/
theorem create_relation_ok {s : DBState} {now : Int} {fromId toId : String}
    {t : RelationType} {meta : Option String} {s' : DBState}
    (h : GraphOperations.create_relation s now fromId toId t meta
      = Except.ok s') :
    would_create_cycle s fromId toId = false ∧
      s' = { s with relations :=
        upsertRelation s.relations ⟨fromId, toId, t, meta, now⟩ } := by
  unfold GraphOperations.create_relation at h
  split at h
  · exact absurd h (by simp)
  case isFalse hc =>
    exact ⟨by simpa using hc, (Except.ok.inj h).symm⟩

/-- A failed cycle check means the target really does not reach the
source. -/
theorem not_depReach_of_check_false {s : DBState} {fromId toId : String}
    (h : would_create_cycle s fromId toId = false) :
    ¬ DepReach s toId fromId := by
  intro hr
  have : would_create_cycle s fromId toId = true := by
    simp only [would_create_cycle, decide_eq_true_eq]
    exact (mem_get_reachable s toId fromId).mpr hr
  rw [h] at this
  exact Bool.false_ne_true this

/-- A successful `create_relation` preserves dependency acyclicity: its
cycle check already rejected any edge whose target reaches its source. -/
theorem createRel_preserves_acyclic {s : DBState} (hac : DepAcyclic s)
    (now : Int) (fromId toId : String) (t : RelationType)
    (meta : Option String) :
    DepAcyclic (applyOp s (.createRel now fromId toId t meta)) := by
  rcases h : GraphOperations.create_relation s now fromId toId t meta with
    err | s'
  · simpa only [applyOp, h] using hac
  · simp only [applyOp, h]
    obtain ⟨hchk, rfl⟩ := create_relation_ok h
    have hnr : ¬ DepReach s toId fromId := not_depReach_of_check_false hchk
    intro x hx
    by_cases hdep : t.isDependency = true
    · refine @acyclic_insert String (depStep s) fromId toId hac hnr x ?_
      refine Relation.TransGen.mono ?_ hx
      rintro a b ⟨r, hr, hfrom, hto, hd⟩
      rcases List.mem_append.mp hr with h' | h'
      · exact Or.inl ⟨r, (List.mem_filter.mp h').1, hfrom, hto, hd⟩
      · rcases List.mem_singleton.mp h' with rfl
        exact Or.inr ⟨hfrom.symm, hto.symm⟩
    · refine hac x (Relation.TransGen.mono ?_ hx)
      rintro a b ⟨r, hr, hfrom, hto, hd⟩
      rcases List.mem_append.mp hr with h' | h'
      · exact ⟨r, (List.mem_filter.mp h').1, hfrom, hto, hd⟩
      · rcases List.mem_singleton.mp h' with rfl
        exact absurd hd hdep

/-- Every single store or graph operation preserves dependency
acyclicity. -/
theorem applyOp_preserves_acyclic {s : DBState} (hac : DepAcyclic s)
    (op : Op) : DepAcyclic (applyOp s op) := by
  cases op with
  | createE e =>
    rcases h : Storage.create s e with err | s'
    · simpa only [applyOp, h] using hac
    · simp only [applyOp, h]
      obtain ⟨_, rfl⟩ := create_ok_state h
      exact acyclic_of_imp (fun a b hd => hd) hac
  | updateE now e =>
    rcases h : Storage.update s now e with err | s'
    · simpa only [applyOp, h] using hac
    · simp only [applyOp, h]
      have hrel := update_ok_relations h
      refine acyclic_of_imp ?_ hac
      rw [show depStep s' = depStep { s with relations := s'.relations }
        from rfl, hrel]
      exact fun a b hd => hd
  | deleteE id scope =>
    rcases h : Storage.delete s id scope with err | s'
    · simpa only [applyOp, h] using hac
    · simp only [applyOp, h]
      obtain rfl := delete_ok_state h
      exact acyclic_of_imp (depStep_of_subset
        (fun r hr => (List.mem_filter.mp hr).1)) hac
  | createRel now fromId toId t meta =>
    exact createRel_preserves_acyclic hac now fromId toId t meta
  | deleteRel fromId toId t =>
    exact acyclic_of_imp (depStep_of_subset
      (fun r hr => (List.mem_filter.mp hr).1)) hac

theorem emptyDB_acyclic : DepAcyclic emptyDB := by
  intro x hx
  cases hx with
  | single h => exact absurd h.choose_spec.1 (List.not_mem_nil _)
  | tail _ h => exact absurd h.choose_spec.1 (List.not_mem_nil _)

theorem foldl_preserves_acyclic (ops : List Op) :
    ∀ s : DBState, DepAcyclic s → DepAcyclic (ops.foldl applyOp s) := by
  induction ops with
  | nil => exact fun s h => h
  | cons op rest ih =>
    intro s h
    exact ih (applyOp s op) (applyOp_preserves_acyclic h op)

/-- The existence probe is the existence of a row under the key. -/
theorem existsKey_iff {s : DBState} {id : String} {scope : Scope} :
    Storage.existsKey s id scope = true ↔
      ∃ r ∈ s.entities, r.id = id ∧ r.scope = scope := by
  simp only [Storage.existsKey, decide_eq_true_eq]
  constructor
  · intro h
    obtain ⟨r, hr⟩ := List.exists_mem_of_length_pos h
    obtain ⟨hmem, hp⟩ := List.mem_filter.mp hr
    exact ⟨r, hmem, of_decide_eq_true hp⟩
  · rintro ⟨r, hr, h1, h2⟩
    exact List.length_pos_of_mem
      (List.mem_filter.mpr ⟨hr, by simp [h1, h2]⟩)

theorem find?_append_none {α : Type} {p : α → Bool} {l1 l2 : List α}
    (h : l1.find? p = none) : (l1 ++ l2).find? p = l2.find? p := by
  induction l1 with
  | nil => rfl
  | cons a t ih =>
    by_cases hpa : p a = true
    · rw [List.find?_cons_of_pos _ hpa] at h
      exact absurd h (by simp)
    · have hpa' : ¬ p a = true := hpa
      rw [List.find?_cons_of_neg _ (by simpa using hpa')] at h
      rw [List.cons_append, List.find?_cons_of_neg _ (by simpa using hpa')]
      exact ih h

theorem find?_map_pred {α : Type} {p : α → Bool} {f : α → α}
    (hf : ∀ x, p (f x) = p x) (l : List α) :
    (l.map f).find? p = (l.find? p).map f := by
  induction l with
  | nil => rfl
  | cons a t ih =>
    by_cases hpa : p a = true
    · rw [List.map_cons, List.find?_cons_of_pos _ ((hf a).trans hpa),
        List.find?_cons_of_pos _ hpa]
      rfl
    · have hnfa : ¬ p (f a) = true := by rw [hf a]; exact hpa
      rw [List.map_cons, List.find?_cons_of_neg _ (by simpa using hnfa),
        List.find?_cons_of_neg _ (by simpa using hpa)]
      exact ih

/-- Destructuring a successful point lookup: the first row under the key
exists and its payload decodes to the returned entity. -/
theorem get_ok_some {s : DBState} {id : String} {scope : Scope}
    {ex : Expertise} (h : Storage.get s id scope = .ok (some ex)) :
    ∃ r, s.entities.find?
        (fun r => decide (r.id = id ∧ r.scope = scope)) = some r ∧
      Expertise.from_json r.data_json = .ok ex := by
  unfold Storage.get at h
  split at h
  case _ r heq =>
    refine ⟨r, heq, ?_⟩
    cases hj : Expertise.from_json r.data_json with
    | error err => rw [hj] at h; exact absurd h (by simp [Except.map])
    | ok e' =>
      rw [hj] at h
      simp only [Except.map] at h
      rcases Except.ok.inj h with h'
      rw [Option.some.inj h']
  case _ => exact absurd h (by simp)

/-- C1: For every sequence of sequentially executed EntityStore and
RelationGraph operations starting from an empty store, the relation
subgraph restricted to the edge types Uses, Extends, Requires remains
acyclic after every operation; Conflicts edges are excluded from the
acyclicity predicate (`DepAcyclic` only counts dependency-typed edges). -/
theorem c1_dep_subgraph_always_acyclic (ops : List Op) :
    DepAcyclic (runOps ops) :=
  foldl_preserves_acyclic ops emptyDB emptyDB_acyclic

/-- C2: `create_relation(from, to, type, metadata)` fails with
`CircularDependency{from, to}` exactly when `from` is reachable from `to`
along dependency edges only — the check runs for every relation type,
Conflicts included (the statement quantifies over all `t`); on failure
nothing is written, and otherwise the edge is upserted on the full
`(from, to, type)` key. -/
theorem c2_create_relation_cycle_check (s : DBState) (now : Int)
    (fromId toId : String) (t : RelationType) (meta : Option String) :
    (DepReach s toId fromId →
      GraphOperations.create_relation s now fromId toId t meta
          = .error (.CircularDependency fromId toId)
        ∧ applyOp s (.createRel now fromId toId t meta) = s)
    ∧ (¬ DepReach s toId fromId →
      GraphOperations.create_relation s now fromId toId t meta
          = .ok { s with relations :=
              upsertRelation s.relations ⟨fromId, toId, t, meta, now⟩ }) := by
  constructor
  · intro hr
    have hchk : would_create_cycle s fromId toId = true := by
      simp only [would_create_cycle, decide_eq_true_eq]
      exact (mem_get_reachable s toId fromId).mpr hr
    have herr : GraphOperations.create_relation s now fromId toId t meta
        = .error (.CircularDependency fromId toId) := by
      simp [GraphOperations.create_relation, hchk]
    exact ⟨herr, by simp [applyOp, herr]⟩
  · intro hnr
    have hchk : would_create_cycle s fromId toId = false := by
      rw [would_create_cycle, decide_eq_false_iff_not]
      intro hmem
      exact hnr ((mem_get_reachable s toId fromId).mp hmem)
    simp [GraphOperations.create_relation, hchk]

/-- Witness for C2 on the repository's own test scenario: with the Uses
chain a → b → c stored, creating c → a is rejected with
`CircularDependency` and the store is unchanged. -/
theorem c2_witness :
    GraphOperations.create_relation sChain 2 "c" "a" .Uses none
        = .error (.CircularDependency "c" "a")
      ∧ applyOp sChain (.createRel 2 "c" "a" .Uses none) = sChain :=
  (c2_create_relation_cycle_check sChain 2 "c" "a" .Uses none).1
    ((mem_get_reachable sChain "a" "c").mp (by decide))

/-- C9: for every node `x` and every relation type — Conflicts included —
`create_relation(x, x, t, metadata)` fails with `CircularDependency{x, x}`
and writes nothing: the reachable set always contains its start node, so
self-loop edges can never be created. -/
theorem c9_self_loop_always_rejected (s : DBState) (now : Int) (x : String)
    (t : RelationType) (meta : Option String) :
    GraphOperations.create_relation s now x x t meta
        = .error (.CircularDependency x x)
      ∧ applyOp s (.createRel now x x t meta) = s := by
  have hchk : would_create_cycle s x x = true := by
    simp only [would_create_cycle, decide_eq_true_eq]
    exact (mem_get_reachable s x x).mpr Relation.ReflTransGen.refl
  have herr : GraphOperations.create_relation s now x x t meta
      = .error (.CircularDependency x x) := by
    simp [GraphOperations.create_relation, hchk]
  exact ⟨herr, by simp [applyOp, herr]⟩

/-- C4: `create(e)` fails with `AlreadyExists{id, scope}` when the key is
occupied and changes nothing; otherwise it appends exactly one entity row
and one tag row per tag, touching neither `versions` (no archiving on
create) nor `relations`. -/
theorem c4_create_spec (s : DBState) (e : Expertise) :
    ((∃ r ∈ s.entities, r.id = e.id ∧ r.scope = e.scope) →
      Storage.create s e = .error (.AlreadyExists e.id e.scope.as_str)
        ∧ applyOp s (.createE e) = s)
    ∧ ((¬ ∃ r ∈ s.entities, r.id = e.id ∧ r.scope = e.scope) →
      Storage.create s e = .ok { s with
        entities := s.entities ++ [mkRow e]
        tags := s.tags ++ e.tags.map (fun t => (e.id, t)) }) := by
  constructor
  · intro hex
    have hk : Storage.existsKey s e.id e.scope = true := existsKey_iff.mpr hex
    have herr : Storage.create s e
        = .error (.AlreadyExists e.id e.scope.as_str) := by
      simp [Storage.create, hk]
    exact ⟨herr, by simp [applyOp, herr]⟩
  · intro hnex
    have hk : Storage.existsKey s e.id e.scope = false := by
      cases hk0 : Storage.existsKey s e.id e.scope with
      | true => exact absurd (existsKey_iff.mp hk0) hnex
      | false => rfl
    simp [Storage.create, hk]

/-- Witness for C4: creating `eAlpha` again over `sAlpha` fails and leaves
the store unchanged; creating it in the empty store yields `sAlpha`. -/
theorem c4_witness :
    (Storage.create sAlpha eAlpha
        = .error (.AlreadyExists "alpha" "personal")
      ∧ applyOp sAlpha (.createE eAlpha) = sAlpha)
    ∧ Storage.create emptyDB eAlpha = .ok sAlpha :=
  ⟨(c4_create_spec sAlpha eAlpha).1
      ⟨mkRow eAlpha, List.mem_cons_self _ _, rfl, rfl⟩,
    (c4_create_spec emptyDB eAlpha).2
      (by rintro ⟨r, hr, -⟩; exact absurd hr (List.not_mem_nil _))⟩

/-- C5: `delete(id, scope)` fails with `NotFound` when no entity has the
key and changes nothing; when one exists the delete succeeds, a subsequent
`get` returns none, and the id's tag rows and every relation edge touching
the id are removed. -/
theorem c5_delete_spec (s : DBState) (id : String) (scope : Scope) :
    ((¬ ∃ r ∈ s.entities, r.id = id ∧ r.scope = scope) →
      Storage.delete s id scope = .error (.NotFound id scope.as_str)
        ∧ applyOp s (.deleteE id scope) = s)
    ∧ ((∃ r ∈ s.entities, r.id = id ∧ r.scope = scope) →
      Storage.delete s id scope = .ok (applyOp s (.deleteE id scope))
        ∧ Storage.get (applyOp s (.deleteE id scope)) id scope = .ok none
        ∧ (applyOp s (.deleteE id scope)).tags
            = s.tags.filter (fun tg => decide (¬ tg.1 = id))
        ∧ (applyOp s (.deleteE id scope)).relations
            = s.relations.filter
                (fun r => decide (¬ (r.from_id = id ∨ r.to_id = id)))) := by
  constructor
  · intro hnex
    have hall : ∀ r ∈ s.entities,
        (fun r => decide (¬ (r.id = id ∧ r.scope = scope))) r = true := by
      intro r hr
      simp only [decide_eq_true_eq]
      intro ⟨h1, h2⟩
      exact hnex ⟨r, hr, h1, h2⟩
    have hlen : (s.entities.filter
        (fun r => decide (¬ (r.id = id ∧ r.scope = scope)))).length
        = s.entities.length := by
      rw [List.filter_eq_self.mpr hall]
    have herr : Storage.delete s id scope
        = .error (.NotFound id scope.as_str) := by
      rw [Storage.delete, if_pos hlen]
    exact ⟨herr, by simp [applyOp, herr]⟩
  · rintro ⟨r0, hr0, h01, h02⟩
    have hlen : ¬ (s.entities.filter
        (fun r => decide (¬ (r.id = id ∧ r.scope = scope)))).length
        = s.entities.length := by
      intro hlen
      have hall := List.filter_length_eq_length.mp hlen
      have := hall r0 hr0
      simp only [decide_eq_true_eq] at this
      exact this ⟨h01, h02⟩
    have hok : Storage.delete s id scope = .ok { s with
        entities := s.entities.filter
          (fun r => decide (¬ (r.id = id ∧ r.scope = scope)))
        tags := s.tags.filter (fun tg => decide (¬ tg.1 = id))
        relations := s.relations.filter
          (fun r => decide (¬ (r.from_id = id ∨ r.to_id = id))) } := by
      rw [Storage.delete, if_neg hlen]
    have happ : applyOp s (.deleteE id scope) = { s with
        entities := s.entities.filter
          (fun r => decide (¬ (r.id = id ∧ r.scope = scope)))
        tags := s.tags.filter (fun tg => decide (¬ tg.1 = id))
        relations := s.relations.filter
          (fun r => decide (¬ (r.from_id = id ∨ r.to_id = id))) } := by
      simp [applyOp, hok]
    refine ⟨by rw [hok, happ], ?_, by rw [happ], by rw [happ]⟩
    rw [happ]
    unfold Storage.get
    have hnone : (s.entities.filter
        (fun r => decide (¬ (r.id = id ∧ r.scope = scope)))).find?
        (fun r => decide (r.id = id ∧ r.scope = scope)) = none := by
      rw [List.find?_eq_none]
      intro x hx hpred
      have h1 := (List.mem_filter.mp hx).2
      simp only [decide_eq_true_eq] at h1 hpred
      exact h1 hpred
    rw [hnone]

/-- Witness for C5: deleting a missing key from the empty store fails with
`NotFound`; deleting `eAlpha`'s key from `sAlpha` succeeds, empties the
lookup, and removes its tag rows. -/
theorem c5_witness :
    (Storage.delete emptyDB "alpha" .Personal
        = .error (.NotFound "alpha" "personal")
      ∧ applyOp emptyDB (.deleteE "alpha" .Personal) = emptyDB)
    ∧ (Storage.delete sAlpha "alpha" .Personal
        = .ok (applyOp sAlpha (.deleteE "alpha" .Personal))
      ∧ Storage.get (applyOp sAlpha (.deleteE "alpha" .Personal))
          "alpha" .Personal = .ok none
      ∧ (applyOp sAlpha (.deleteE "alpha" .Personal)).tags
          = sAlpha.tags.filter (fun tg => decide (¬ tg.1 = "alpha"))
      ∧ (applyOp sAlpha (.deleteE "alpha" .Personal)).relations
          = sAlpha.relations.filter
              (fun r => decide (¬ (r.from_id = "alpha" ∨ r.to_id = "alpha")))) :=
  ⟨(c5_delete_spec emptyDB "alpha" .Personal).1
      (by rintro ⟨r, hr, -⟩; exact absurd hr (List.not_mem_nil _)),
    (c5_delete_spec sAlpha "alpha" .Personal).2
      ⟨mkRow eAlpha, List.mem_cons_self _ _, rfl, rfl⟩⟩

/-- C7: after a successful `create(e)`, `get(e.id, e.scope)` returns an
entity structurally equal to `e`: the stored JSON payload round-trips. -/
theorem c7_create_then_get (s : DBState) (e : Expertise) (s' : DBState)
    (h : Storage.create s e = .ok s') :
    Storage.get s' e.id e.scope = .ok (some e) := by
  obtain ⟨hk, rfl⟩ := create_ok_state h
  unfold Storage.get
  have hnone : s.entities.find?
      (fun r => decide (r.id = e.id ∧ r.scope = e.scope)) = none := by
    rw [List.find?_eq_none]
    intro r hr hpred
    have hkey := existsKey_iff.mpr ⟨r, hr, of_decide_eq_true hpred⟩
    rw [hk] at hkey
    exact Bool.false_ne_true hkey
  have hsingle : List.find? (fun r => decide (r.id = e.id ∧ r.scope = e.scope))
      [mkRow e] = some (mkRow e) := by
    rw [List.find?_singleton, if_pos]
    simp [mkRow]
  rw [show ({ s with
      entities := s.entities ++ [mkRow e]
      tags := s.tags ++ e.tags.map (fun t => (e.id, t)) } : DBState).entities
      = s.entities ++ [mkRow e] from rfl]
  rw [find?_append_none hnone, hsingle]
  show Except.map some (Expertise.from_json e.to_json) = .ok (some e)
  rw [from_json_to_json]
  rfl

/-- Witness for C7 at a concrete entity. -/
theorem c7_witness :
    Storage.get sAlpha "alpha" .Personal = .ok (some eAlpha) :=
  c7_create_then_get emptyDB eAlpha sAlpha rfl

/-- When the stored entity under the key reads back as `ex`, `update`
succeeds and performs exactly the archive-then-overwrite writes. -/
theorem update_ok_of_get {s : DBState} {now : Int} {e ex : Expertise}
    (hget : Storage.get s e.id e.scope = .ok (some ex)) :
    Storage.update s now e = .ok (Storage.applyUpdate
      { s with versions := Storage.upsertVersion s.versions ex now }
      now e) := by
  obtain ⟨r, hfind, _⟩ := get_ok_some hget
  have hprops : r.id = e.id ∧ r.scope = e.scope := by
    have hp := List.find?_some hfind
    simp only [decide_eq_true_eq] at hp
    exact hp
  have hk : Storage.existsKey s e.id e.scope = true :=
    existsKey_iff.mpr ⟨r, List.mem_of_find?_eq_some hfind, hprops⟩
  rw [Storage.update, if_pos hk, hget]

/-- The row rewrite of `update` never changes a row's id or scope, so the
key predicate is invariant under it. -/
theorem updateRow_pred (e : Expertise) (now : Int) :
    ∀ x, (fun r => decide (r.id = e.id ∧ r.scope = e.scope))
        (Storage.updateRow e now x)
      = (fun r => decide (r.id = e.id ∧ r.scope = e.scope)) x := by
  intro x
  show decide ((Storage.updateRow e now x).id = e.id
      ∧ (Storage.updateRow e now x).scope = e.scope)
    = decide (x.id = e.id ∧ x.scope = e.scope)
  unfold Storage.updateRow
  split <;> rfl

/-- C3 (amended): when `get` reads the stored entity `ex` back under
`e`'s key and the update happens at a strictly later timestamp than
`ex.updated_at`, `update(e)` succeeds; the pre-update state is archived so
`get_version(e.id, ex.version)` returns `ex`; `get(e.key)` returns `e`
with `updated_at` freshly stamped to `now`, strictly greater than before;
and the id's tag index is fully rebuilt from `e`'s tags. -/
theorem c3_update_spec (s : DBState) (now : Int) (e ex : Expertise)
    (hget : Storage.get s e.id e.scope = .ok (some ex))
    (hid : ex.id = e.id)
    (hnow : ex.updated_at < now) :
    Storage.update s now e = .ok (applyOp s (.updateE now e))
    ∧ Storage.get_version (applyOp s (.updateE now e)) e.id ex.version
        = .ok (some ex)
    ∧ Storage.get (applyOp s (.updateE now e)) e.id e.scope
        = .ok (some { e with updated_at := now })
    ∧ ex.updated_at < ({ e with updated_at := now } : Expertise).updated_at
    ∧ (applyOp s (.updateE now e)).tags
        = s.tags.filter (fun tg => decide (¬ tg.1 = e.id))
          ++ e.tags.map (fun t => (e.id, t)) := by
  obtain ⟨r, hfind, hdec⟩ := get_ok_some hget
  have hprops : r.id = e.id ∧ r.scope = e.scope := by
    have hp := List.find?_some hfind
    simp only [decide_eq_true_eq] at hp
    exact hp
  have hupd := @update_ok_of_get s now e ex hget
  have happ : applyOp s (.updateE now e) = Storage.applyUpdate
      { s with versions := Storage.upsertVersion s.versions ex now }
      now e := by
    simp [applyOp, hupd]
  refine ⟨by rw [hupd, happ], ?_, ?_, hnow, by rw [happ]; rfl⟩
  · rw [happ]
    have hvers : (Storage.applyUpdate
        { s with versions := Storage.upsertVersion s.versions ex now }
        now e).versions = Storage.upsertVersion s.versions ex now := rfl
    rw [Storage.get_version, hvers, Storage.upsertVersion]
    have hvnone : (s.versions.filter (fun v =>
        decide (¬ (v.expertise_id = ex.id ∧ v.version = ex.version)))).find?
        (fun v => decide (v.expertise_id = e.id ∧ v.version = ex.version))
        = none := by
      rw [List.find?_eq_none]
      intro v hv hp
      have h1 := of_decide_eq_true ((List.mem_filter.mp hv).2)
      have h2 := of_decide_eq_true hp
      exact h1 ⟨hid ▸ h2.1, h2.2⟩
    rw [find?_append_none hvnone, List.find?_singleton, if_pos (by simp [hid])]
    show Except.map some (Expertise.from_json ex.to_json) = .ok (some ex)
    rw [from_json_to_json]
    rfl
  · rw [happ]
    have hents : (Storage.applyUpdate
        { s with versions := Storage.upsertVersion s.versions ex now }
        now e).entities = s.entities.map (Storage.updateRow e now) := rfl
    rw [Storage.get, hents, find?_map_pred (updateRow_pred e now), hfind]
    show Except.map some (Expertise.from_json
      (Storage.updateRow e now r).data_json) = .ok (some { e with
        updated_at := now })
    have hfr : Storage.updateRow e now r = { r with
        version := e.version
        updated_at := now
        data_json := Expertise.to_json { e with updated_at := now }
        description := e.description } := by
      rw [Storage.updateRow, if_pos hprops]
    rw [hfr]
    show Except.map some (Expertise.from_json
      (Expertise.to_json { e with updated_at := now }))
      = .ok (some { e with updated_at := now })
    rw [from_json_to_json]
    rfl

/-- Witness for C3's amended statement: updating `eAlpha` (stored at
updated_at 1) with payload `eAlphaV2` at time 2 archives version "1",
reads back the new payload stamped at 2, and rebuilds the tag index. -/
theorem c3_witness :
    Storage.update sAlpha 2 eAlphaV2
        = .ok (applyOp sAlpha (.updateE 2 eAlphaV2))
    ∧ Storage.get_version (applyOp sAlpha (.updateE 2 eAlphaV2))
        eAlphaV2.id eAlpha.version = .ok (some eAlpha)
    ∧ Storage.get (applyOp sAlpha (.updateE 2 eAlphaV2))
        eAlphaV2.id eAlphaV2.scope
        = .ok (some { eAlphaV2 with updated_at := 2 })
    ∧ eAlpha.updated_at
        < ({ eAlphaV2 with updated_at := 2 } : Expertise).updated_at
    ∧ (applyOp sAlpha (.updateE 2 eAlphaV2)).tags
        = sAlpha.tags.filter (fun tg => decide (¬ tg.1 = eAlphaV2.id))
          ++ eAlphaV2.tags.map (fun t => (eAlphaV2.id, t)) :=
  c3_update_spec sAlpha 2 eAlphaV2 eAlpha rfl rfl (by decide)

/-- Counterexample to C3 as stated: updating at the same wall-clock second
as the stored `updated_at` (both 1) succeeds, yet the post-update
`updated_at` is not strictly greater than the pre-update one — `touch()`
stamps the current second, which need not have advanced. -/
theorem c3_counterexample :
    Storage.update sAlpha 1 eAlphaV2
        = .ok (applyOp sAlpha (.updateE 1 eAlphaV2))
    ∧ Storage.get sAlpha "alpha" .Personal = .ok (some eAlpha)
    ∧ Storage.get (applyOp sAlpha (.updateE 1 eAlphaV2)) "alpha" .Personal
        = .ok (some eAlphaV2)
    ∧ ¬ eAlpha.updated_at < eAlphaV2.updated_at :=
  ⟨rfl, rfl, rfl, by decide⟩

/-- A never-rejected `create_relation` precondition: if the target does not
reach the source along dependency edges, the cycle check reports false. -/
theorem check_false_of_not_depReach {s : DBState} {fromId toId : String}
    (hnr : ¬ DepReach s toId fromId) :
    would_create_cycle s fromId toId = false := by
  rw [would_create_cycle, decide_eq_false_iff_not]
  intro hmem
  exact hnr ((mem_get_reachable s toId fromId).mp hmem)

/-- C8 (amended): re-creating an already-existing edge `(from, to, t)` with
new metadata succeeds provided `from` is not dependency-reachable from `to`
(automatic for dependency-typed edges while the dependency subgraph is
acyclic); the edge is replaced on its full key rather than duplicated —
exactly one `(from, to, t)` row remains, carrying the new metadata and
timestamp — and nothing else changes. -/
theorem c8_recreate_edge_upserts (s : DBState) (now : Int)
    (fromId toId : String) (t : RelationType) (meta meta0 : Option String)
    (c0 : Int)
    (_hmem : (⟨fromId, toId, t, meta0, c0⟩ : RelationRow) ∈ s.relations)
    (hnr : ¬ DepReach s toId fromId) :
    GraphOperations.create_relation s now fromId toId t meta
        = .ok (applyOp s (.createRel now fromId toId t meta))
    ∧ (applyOp s (.createRel now fromId toId t meta)).relations
        = s.relations.filter (fun x => decide (¬ (x.from_id = fromId
            ∧ x.to_id = toId ∧ x.rtype = t)))
          ++ [⟨fromId, toId, t, meta, now⟩]
    ∧ (applyOp s (.createRel now fromId toId t meta)).relations.filter
        (fun x => decide (x.from_id = fromId ∧ x.to_id = toId
          ∧ x.rtype = t))
        = [⟨fromId, toId, t, meta, now⟩]
    ∧ (applyOp s (.createRel now fromId toId t meta)).entities = s.entities
    ∧ (applyOp s (.createRel now fromId toId t meta)).tags = s.tags
    ∧ (applyOp s (.createRel now fromId toId t meta)).versions
        = s.versions := by
  have hchk := check_false_of_not_depReach hnr
  have hok : GraphOperations.create_relation s now fromId toId t meta
      = .ok { s with relations :=
          upsertRelation s.relations ⟨fromId, toId, t, meta, now⟩ } := by
    simp [GraphOperations.create_relation, hchk]
  have happ : applyOp s (.createRel now fromId toId t meta)
      = { s with relations :=
          upsertRelation s.relations ⟨fromId, toId, t, meta, now⟩ } := by
    simp [applyOp, hok]
  refine ⟨by rw [hok, happ], by rw [happ]; rfl, ?_, by rw [happ],
    by rw [happ], by rw [happ]⟩
  rw [happ]
  show (upsertRelation s.relations ⟨fromId, toId, t, meta, now⟩).filter
      (fun x => decide (x.from_id = fromId ∧ x.to_id = toId
        ∧ x.rtype = t))
      = [⟨fromId, toId, t, meta, now⟩]
  rw [upsertRelation, List.filter_append]
  have h1 : (s.relations.filter (fun x => decide (¬ (x.from_id = fromId
      ∧ x.to_id = toId ∧ x.rtype = t)))).filter
      (fun x => decide (x.from_id = fromId ∧ x.to_id = toId
        ∧ x.rtype = t)) = [] := by
    rw [List.filter_eq_nil_iff]
    intro a ha
    have hna := of_decide_eq_true ((List.mem_filter.mp ha).2)
    simp only [decide_eq_true_eq]
    exact hna
  have h2 : ([⟨fromId, toId, t, meta, now⟩] : List RelationRow).filter
      (fun x => decide (x.from_id = fromId ∧ x.to_id = toId
        ∧ x.rtype = t)) = [⟨fromId, toId, t, meta, now⟩] := by
    simp
  rw [h1, h2, List.nil_append]

/-- Witness for C8's amended statement: re-creating the existing Uses edge
a → b with new metadata replaces it in place. -/
theorem c8_witness :
    GraphOperations.create_relation sEdge 5 "a" "b" .Uses (some "m")
        = .ok (applyOp sEdge (.createRel 5 "a" "b" .Uses (some "m")))
    ∧ (applyOp sEdge (.createRel 5 "a" "b" .Uses (some "m"))).relations
        = sEdge.relations.filter (fun x => decide (¬ (x.from_id = "a"
            ∧ x.to_id = "b" ∧ x.rtype = .Uses)))
          ++ [⟨"a", "b", .Uses, some "m", 5⟩]
    ∧ (applyOp sEdge (.createRel 5 "a" "b" .Uses (some "m"))).relations.filter
        (fun x => decide (x.from_id = "a" ∧ x.to_id = "b"
          ∧ x.rtype = .Uses))
        = [⟨"a", "b", .Uses, some "m", 5⟩]
    ∧ (applyOp sEdge (.createRel 5 "a" "b" .Uses (some "m"))).entities
        = sEdge.entities
    ∧ (applyOp sEdge (.createRel 5 "a" "b" .Uses (some "m"))).tags
        = sEdge.tags
    ∧ (applyOp sEdge (.createRel 5 "a" "b" .Uses (some "m"))).versions
        = sEdge.versions :=
  c8_recreate_edge_upserts sEdge 5 "a" "b" .Uses (some "m") none 0
    (by decide)
    (fun h => absurd ((mem_get_reachable sEdge "b" "a").mpr h) (by decide))

/-- Counterexample to C8 as stated: after the reachable operation sequence
`conflictOps` (Conflicts a → b created first, then Uses b → a), the
Conflicts edge a → b exists, yet re-creating it with new metadata fails
with `CircularDependency` — the cycle check runs for Conflicts edges too
and b now reaches a through the Uses edge. -/
theorem c8_counterexample :
    ((⟨"a", "b", .Conflicts, none, 0⟩ : RelationRow)
        ∈ (runOps conflictOps).relations)
    ∧ GraphOperations.create_relation (runOps conflictOps) 2 "a" "b"
        .Conflicts (some "updated")
        = .error (.CircularDependency "a" "b") :=
  ⟨by decide, rfl⟩

/-- C10: tag rows are keyed by entity id alone, without scope.  When a
second entity shares the updated entity's id in a different scope, the
update leaves that entity's row untouched but deletes all tag rows of the
shared id — the other scope's included — and reinserts only the updated
payload's tags. -/
theorem c10_update_tags_cross_scope (s : DBState) (now : Int)
    (e ex : Expertise) (r2 : EntityRow)
    (hget : Storage.get s e.id e.scope = .ok (some ex))
    (hr2 : r2 ∈ s.entities) (_hid2 : r2.id = e.id)
    (hsc : r2.scope ≠ e.scope) :
    Storage.update s now e = .ok (applyOp s (.updateE now e))
    ∧ r2 ∈ (applyOp s (.updateE now e)).entities
    ∧ (applyOp s (.updateE now e)).tags
        = s.tags.filter (fun tg => decide (¬ tg.1 = e.id))
          ++ e.tags.map (fun t => (e.id, t)) := by
  have hupd := @update_ok_of_get s now e ex hget
  have happ : applyOp s (.updateE now e) = Storage.applyUpdate
      { s with versions := Storage.upsertVersion s.versions ex now }
      now e := by
    simp [applyOp, hupd]
  refine ⟨by rw [hupd, happ], ?_, by rw [happ]; rfl⟩
  rw [happ]
  have hfix : Storage.updateRow e now r2 = r2 := by
    rw [Storage.updateRow, if_neg]
    intro ⟨_, h2⟩
    exact hsc h2
  exact List.mem_map.mpr ⟨r2, hr2, hfix⟩

theorem expertise_id_inj {es : List Expertise}
    (hids : (es.map (fun e => e.id)).Nodup) :
    ∀ e ∈ es, ∀ e' ∈ es, e.id = e'.id → e = e' := by
  induction es with
  | nil => intro e he; exact absurd he (List.not_mem_nil _)
  | cons a l ih =>
    rw [List.map_cons, List.nodup_cons] at hids
    intro e he e' he' heq
    rcases List.mem_cons.mp he with rfl | he2 <;>
      rcases List.mem_cons.mp he' with rfl | he2'
    · rfl
    · exact absurd (List.mem_map.mpr ⟨e', he2', heq.symm⟩) hids.1
    · exact absurd (List.mem_map.mpr ⟨e, he2, heq⟩) hids.1
    · exact ih hids.2 e he2 e' he2' heq

theorem mem_stateOf_entities {es : List Expertise} {r : EntityRow} :
    r ∈ (stateOf es).entities ↔ ∃ e ∈ es, mkRow e = r := by
  simp [stateOf]

theorem mem_stateOf_tags {es : List Expertise} {i t : String} :
    (i, t) ∈ (stateOf es).tags ↔ ∃ e ∈ es, e.id = i ∧ t ∈ e.tags := by
  simp only [stateOf, List.mem_flatMap, List.mem_map, Prod.mk.injEq]
  constructor
  · rintro ⟨e, he, t', ht', h1, h2⟩
    exact ⟨e, he, h1, h2 ▸ ht'⟩
  · rintro ⟨e, he, h1, h2⟩
    exact ⟨e, he, t, h2, h1, rfl⟩

theorem mem_joinedRows {s : DBState} {ts : List String}
    {p : EntityRow × String} :
    p ∈ QueryBuilder.joinedRows s ts {} ↔
      p.1 ∈ s.entities ∧ (p.1.id, p.2) ∈ s.tags ∧ p.2 ∈ ts := by
  simp only [QueryBuilder.joinedRows, List.mem_flatMap, List.mem_filter,
    List.mem_map, decide_eq_true_eq]
  constructor
  · rintro ⟨r, ⟨hr, -⟩, tg, ⟨htg, h1, h2⟩, heq⟩
    rw [← heq]
    have htg' : (r.id, tg.2) = tg := by rw [← h1]
    refine ⟨hr, ?_, h2⟩
    show (r.id, tg.2) ∈ s.tags
    rw [htg']
    exact htg
  · rintro ⟨h1, h2, h3⟩
    exact ⟨p.1, ⟨h1, rfl⟩, (p.1.id, p.2), ⟨h2, rfl, h3⟩, rfl⟩

theorem mem_groupIds {rows : List (EntityRow × String)} {id : String} :
    id ∈ QueryBuilder.groupIds rows ↔ ∃ p ∈ rows, p.1.id = id := by
  simp [QueryBuilder.groupIds]

theorem mem_groupFor {rows : List (EntityRow × String)} {id : String}
    {p : EntityRow × String} :
    p ∈ QueryBuilder.groupFor rows id ↔ p ∈ rows ∧ p.1.id = id := by
  simp [QueryBuilder.groupFor]

theorem mem_groupReps {rows : List (EntityRow × String)} {ts : List String}
    {rep : EntityRow} :
    rep ∈ QueryBuilder.groupReps rows ts ↔
      ∃ id ∈ QueryBuilder.groupIds rows,
        QueryBuilder.havingOK ts (QueryBuilder.groupFor rows id) = true
        ∧ ((QueryBuilder.groupFor rows id).head?).map (fun p => p.1)
            = some rep := by
  simp only [QueryBuilder.groupReps, List.mem_filterMap]
  constructor
  · rintro ⟨id, hid, hf⟩
    split at hf
    case isTrue h => exact ⟨id, hid, h, hf⟩
    case isFalse h => exact absurd hf (by simp)
  · rintro ⟨id, hid, hh, hf⟩
    refine ⟨id, hid, ?_⟩
    rw [if_pos hh]
    exact hf

theorem decodeAll_ok {js : List Json}
    (h : ∀ j ∈ js, ∃ y, Expertise.from_json j = .ok y) :
    ∃ out, QueryBuilder.decodeAll js = .ok out ∧
      ∀ y, y ∈ out ↔ ∃ j ∈ js, Expertise.from_json j = .ok y := by
  induction js with
  | nil => exact ⟨[], rfl, by simp⟩
  | cons j js ih =>
    obtain ⟨y0, hy0⟩ := h j (List.mem_cons_self _ _)
    obtain ⟨out, hout, hiff⟩ :=
      ih (fun j' hj' => h j' (List.mem_cons_of_mem _ hj'))
    refine ⟨y0 :: out, by simp [QueryBuilder.decodeAll, hy0, hout], ?_⟩
    intro y
    rw [List.mem_cons, hiff]
    constructor
    · rintro (rfl | ⟨j', hj', hd⟩)
      · exact ⟨j, List.mem_cons_self _ _, hy0⟩
      · exact ⟨j', List.mem_cons_of_mem _ hj', hd⟩
    · rintro ⟨j', hj', hd⟩
      rcases List.mem_cons.mp hj' with rfl | hj2
      · rw [hy0] at hd
        exact Or.inl (Except.ok.inj hd).symm
      · exact Or.inr ⟨j', hj2, hd⟩

/-- In the canonical store with pairwise-distinct ids, every row of entity
`e`'s group carries `e`'s entity row and one of `e`'s tags that is in the
query list. -/
theorem stateOf_group_row {es : List Expertise} (ts : List String)
    (hids : (es.map (fun e => e.id)).Nodup) {e : Expertise} (he : e ∈ es)
    {p : EntityRow × String}
    (hp : p ∈ QueryBuilder.groupFor
      (QueryBuilder.joinedRows (stateOf es) ts {}) e.id) :
    p.1 = mkRow e ∧ p.2 ∈ e.tags ∧ p.2 ∈ ts := by
  obtain ⟨hrows, hpid⟩ := mem_groupFor.mp hp
  obtain ⟨hent, htag, hts⟩ := mem_joinedRows.mp hrows
  obtain ⟨e', he', hrow⟩ := mem_stateOf_entities.mp hent
  have hid' : e'.id = e.id := by
    rw [← hpid, ← hrow]
    rfl
  have hee : e' = e := expertise_id_inj hids e' he' e he hid'
  subst hee
  refine ⟨hrow.symm, ?_, hts⟩
  obtain ⟨e'', he'', hid'', htg''⟩ := mem_stateOf_tags.mp htag
  have : e'' = e' := expertise_id_inj hids e'' he'' e' he' (by rw [hid'', hpid, ← hid'])
  exact this ▸ htg''

/-- Conversely, each of `e`'s tags that is in the query list contributes a
row to `e`'s group. -/
theorem stateOf_group_row_rev {es : List Expertise} (ts : List String)
    {e : Expertise} (he : e ∈ es) {t : String} (ht : t ∈ e.tags)
    (hts : t ∈ ts) :
    (mkRow e, t) ∈ QueryBuilder.groupFor
      (QueryBuilder.joinedRows (stateOf es) ts {}) e.id := by
  refine mem_groupFor.mpr ⟨mem_joinedRows.mpr ⟨?_, ?_, hts⟩, rfl⟩
  · exact mem_stateOf_entities.mpr ⟨e, he, rfl⟩
  · exact mem_stateOf_tags.mpr ⟨e, he, rfl, ht⟩

/-- The distinct-count HAVING predicate holds for `e`'s group exactly when
`e`'s tag set contains every (distinct) queried tag. -/
theorem stateOf_having {es : List Expertise} (ts : List String)
    (hids : (es.map (fun e => e.id)).Nodup) (hnd : ts.Nodup)
    {e : Expertise} (he : e ∈ es) :
    QueryBuilder.havingOK ts (QueryBuilder.groupFor
        (QueryBuilder.joinedRows (stateOf es) ts {}) e.id) = true
      ↔ ∀ t ∈ ts, t ∈ e.tags := by
  have hdmem : ∀ t, t ∈ ((QueryBuilder.groupFor
      (QueryBuilder.joinedRows (stateOf es) ts {}) e.id).map
        (fun p => p.2)).dedup ↔ (t ∈ e.tags ∧ t ∈ ts) := by
    intro t
    rw [List.mem_dedup, List.mem_map]
    constructor
    · rintro ⟨p, hp, rfl⟩
      exact (stateOf_group_row ts hids he hp).2
    · rintro ⟨h1, h2⟩
      exact ⟨(mkRow e, t), stateOf_group_row_rev ts he h1 h2, rfl⟩
  rw [QueryBuilder.havingOK, decide_eq_true_eq]
  constructor
  · intro hlen t hts
    have hsub : ((QueryBuilder.groupFor
        (QueryBuilder.joinedRows (stateOf es) ts {}) e.id).map
          (fun p => p.2)).dedup.toFinset ⊆ ts.toFinset := by
      intro x hx
      exact List.mem_toFinset.mpr
        ((hdmem x).mp (List.mem_toFinset.mp hx)).2
    have hcards : ts.toFinset.card ≤ ((QueryBuilder.groupFor
        (QueryBuilder.joinedRows (stateOf es) ts {}) e.id).map
          (fun p => p.2)).dedup.toFinset.card := by
      rw [List.toFinset_card_of_nodup (List.nodup_dedup _),
        List.toFinset_card_of_nodup hnd, hlen]
    have heqf := Finset.eq_of_subset_of_card_le hsub hcards
    have : t ∈ ((QueryBuilder.groupFor
        (QueryBuilder.joinedRows (stateOf es) ts {}) e.id).map
          (fun p => p.2)).dedup := by
      rw [← List.mem_toFinset, heqf, List.mem_toFinset]
      exact hts
    exact ((hdmem t).mp this).1
  · intro hsup
    have heqf : ((QueryBuilder.groupFor
        (QueryBuilder.joinedRows (stateOf es) ts {}) e.id).map
          (fun p => p.2)).dedup.toFinset = ts.toFinset := by
      ext t
      rw [List.mem_toFinset, List.mem_toFinset, hdmem]
      exact ⟨fun h => h.2, fun h => ⟨hsup t h, h⟩⟩
    calc ((QueryBuilder.groupFor
        (QueryBuilder.joinedRows (stateOf es) ts {}) e.id).map
          (fun p => p.2)).dedup.length
        = ((QueryBuilder.groupFor
            (QueryBuilder.joinedRows (stateOf es) ts {}) e.id).map
              (fun p => p.2)).dedup.toFinset.card :=
          (List.toFinset_card_of_nodup (List.nodup_dedup _)).symm
      _ = ts.toFinset.card := by rw [heqf]
      _ = ts.length := List.toFinset_card_of_nodup hnd

/-- Every stored json selected by `filter_by_tags` is the serialization of
a stored entity whose tag set contains every queried tag (distinct ids,
duplicate-free non-empty query). -/
theorem filter_jsons_char {es : List Expertise} (t₀ : String)
    (ts' : List String) (hids : (es.map (fun e => e.id)).Nodup)
    (hnd : (t₀ :: ts').Nodup) :
    ∀ j ∈ ((List.insertionSort (fun a b => b.updated_at ≤ a.updated_at)
        (QueryBuilder.groupReps
          (QueryBuilder.joinedRows (stateOf es) (t₀ :: ts') {})
          (t₀ :: ts'))).map (fun r => r.data_json)).dedup,
      ∃ e' ∈ es, j = e'.to_json ∧ ∀ t ∈ t₀ :: ts', t ∈ e'.tags := by
  intro j hj
  rw [List.mem_dedup, List.mem_map] at hj
  obtain ⟨rep, hrep, hj'⟩ := hj
  rw [List.mem_insertionSort] at hrep
  obtain ⟨id, _, hhav, hhead⟩ := mem_groupReps.mp hrep
  cases hgrp : QueryBuilder.groupFor
      (QueryBuilder.joinedRows (stateOf es) (t₀ :: ts') {}) id with
  | nil =>
    rw [hgrp] at hhead
    exact absurd hhead (by simp)
  | cons q rest =>
    rw [hgrp] at hhead
    simp only [List.head?, Option.map] at hhead
    have hq : q ∈ QueryBuilder.groupFor
        (QueryBuilder.joinedRows (stateOf es) (t₀ :: ts') {}) id := by
      rw [hgrp]
      exact List.mem_cons_self _ _
    obtain ⟨hqrows, hqid⟩ := mem_groupFor.mp hq
    obtain ⟨hent, _, _⟩ := mem_joinedRows.mp hqrows
    obtain ⟨e', he', hrow⟩ := mem_stateOf_entities.mp hent
    have hid' : id = e'.id := by
      rw [← hqid, ← hrow]
      rfl
    have hsup : ∀ t ∈ t₀ :: ts', t ∈ e'.tags := by
      apply (stateOf_having (t₀ :: ts') hids hnd he').mp
      rw [← hid']
      exact hhav
    have hq1 : q.1 = rep := Option.some.inj hhead
    have hrep_eq : rep = mkRow e' := by
      rw [← hq1, ← hrow]
    refine ⟨e', he', ?_, hsup⟩
    rw [← hj', hrep_eq]
    rfl

/-- C6 (amended): for a duplicate-free, non-empty tag list and a store of
entities with pairwise-distinct ids, `filter_by_tags` returns exactly the
entities whose tag set contains every queried tag; for the empty tag list
it returns the empty result, not all entities.  Both provisos are forced
by the counterexample: with duplicates in the list the
`COUNT(DISTINCT tag) = len(tags)` predicate is unsatisfiable and the
result is empty, and with two scopes sharing an id the id-keyed join and
`GROUP BY e.id` pool tags across scopes, returning an entity that lacks a
queried tag. -/
theorem c6_filter_by_tags_spec (es : List Expertise) (ts : List String)
    (hids : (es.map (fun e => e.id)).Nodup)
    (hne : ts ≠ []) (hnd : ts.Nodup) :
    (∃ res, QueryBuilder.filter_by_tags (stateOf es) ts {} = .ok res
      ∧ ∀ e, e ∈ res ↔ e ∈ es ∧ ∀ t ∈ ts, t ∈ e.tags)
    ∧ QueryBuilder.filter_by_tags (stateOf es) [] {} = .ok [] := by
  refine ⟨?_, rfl⟩
  obtain ⟨t₀, ts', rfl⟩ := List.exists_cons_of_ne_nil hne
  have hchar := filter_jsons_char t₀ ts' hids hnd
  have hdecall : ∀ j ∈ ((List.insertionSort
      (fun a b => b.updated_at ≤ a.updated_at)
      (QueryBuilder.groupReps
        (QueryBuilder.joinedRows (stateOf es) (t₀ :: ts') {})
        (t₀ :: ts'))).map (fun r => r.data_json)).dedup,
      ∃ y, Expertise.from_json j = .ok y := by
    intro j hj
    obtain ⟨e', _, hje, _⟩ := hchar j hj
    exact ⟨e', by rw [hje, from_json_to_json]⟩
  obtain ⟨out, hout, hiff⟩ := decodeAll_ok hdecall
  have heq : QueryBuilder.filter_by_tags (stateOf es) (t₀ :: ts') {}
      = QueryBuilder.decodeAll ((List.insertionSort
        (fun a b => b.updated_at ≤ a.updated_at)
        (QueryBuilder.groupReps
          (QueryBuilder.joinedRows (stateOf es) (t₀ :: ts') {})
          (t₀ :: ts'))).map (fun r => r.data_json)).dedup := rfl
  refine ⟨out, by rw [heq, hout], ?_⟩
  intro e
  rw [hiff]
  constructor
  · rintro ⟨j, hj, hd⟩
    obtain ⟨e', he', hje, hsup⟩ := hchar j hj
    rw [hje, from_json_to_json] at hd
    rcases Except.ok.inj hd with rfl
    exact ⟨he', hsup⟩
  · rintro ⟨he, hsup⟩
    refine ⟨e.to_json, ?_, from_json_to_json e⟩
    rw [List.mem_dedup, List.mem_map]
    refine ⟨mkRow e, ?_, rfl⟩
    rw [List.mem_insertionSort]
    refine mem_groupReps.mpr ⟨e.id, ?_, ?_, ?_⟩
    · apply mem_groupIds.mpr
      exact ⟨(mkRow e, t₀),
        (mem_groupFor.mp (stateOf_group_row_rev (t₀ :: ts') he
          (hsup t₀ (List.mem_cons_self _ _)) (List.mem_cons_self _ _))).1,
        rfl⟩
    · exact (stateOf_having (t₀ :: ts') hids hnd he).mpr hsup
    · cases hgrp : QueryBuilder.groupFor
          (QueryBuilder.joinedRows (stateOf es) (t₀ :: ts') {}) e.id with
      | nil =>
        have hmem0 := stateOf_group_row_rev (t₀ :: ts') he
          (hsup t₀ (List.mem_cons_self _ _)) (List.mem_cons_self _ _)
        rw [hgrp] at hmem0
        exact absurd hmem0 (List.not_mem_nil _)
      | cons q rest =>
        have hq : q ∈ QueryBuilder.groupFor
            (QueryBuilder.joinedRows (stateOf es) (t₀ :: ts') {}) e.id := by
          rw [hgrp]
          exact List.mem_cons_self _ _
        have hq1 : q.1 = mkRow e :=
          (stateOf_group_row (t₀ :: ts') hids he hq).1
        show some q.1 = some (mkRow e)
        rw [hq1]

/-- Counterexample to C6 as stated, in both directions the query can go
wrong.  First: with the duplicate tag list ["rust", "rust"], the stored
entity `eAlpha` has every listed tag, yet the result is empty —
`COUNT(DISTINCT t.tag)` can reach at most 1 while the predicate demands 2.
Second: over the store holding both `eAlpha` (Personal, tags rust/async)
and `eAlphaCo` (Company, tag go) under the shared id "alpha" — reachable
through the API by two successful creates — the duplicate-free query
["rust", "go"] returns `eAlpha`, an entity that does not carry the queried
tag "go": the join on `e.id = t.expertise_id` and `GROUP BY e.id` pool
both scopes' tag rows into one group, and the bare-column select returns
the first row's payload. -/
theorem c6_counterexample :
    (QueryBuilder.filter_by_tags sAlpha ["rust", "rust"] {} = .ok []
      ∧ (∀ t ∈ ["rust", "rust"], t ∈ eAlpha.tags)
      ∧ mkRow eAlpha ∈ sAlpha.entities)
    ∧ (runOps [.createE eAlpha, .createE eAlphaCo] = sAlphaBoth
      ∧ (["rust", "go"] : List String).Nodup
      ∧ QueryBuilder.filter_by_tags sAlphaBoth ["rust", "go"] {}
          = .ok [eAlpha]
      ∧ eAlpha ∈ [eAlpha]
      ∧ ¬ "go" ∈ eAlpha.tags) :=
  ⟨⟨rfl, by decide, by decide⟩,
    ⟨rfl, by decide, rfl, by decide, by decide⟩⟩

/-- Witness for C6's amended statement on a concrete store: querying
["rust", "async"] over the two-entity store returns exactly the entity
carrying both tags. -/
theorem c6_witness :
    (∃ res, QueryBuilder.filter_by_tags (stateOf [eAlpha, eBeta])
        ["rust", "async"] {} = .ok res
      ∧ ∀ e, e ∈ res ↔ e ∈ [eAlpha, eBeta]
          ∧ ∀ t ∈ ["rust", "async"], t ∈ e.tags)
    ∧ QueryBuilder.filter_by_tags (stateOf [eAlpha, eBeta]) [] {}
        = .ok [] :=
  c6_filter_by_tags_spec [eAlpha, eBeta] ["rust", "async"] (by decide)
    (by decide) (by decide)

/-- Witness for C10: with `eAlpha` (Personal) and `eAlphaCo` (Company)
sharing the id "alpha", updating the Personal one also drops the Company
entity's tag row ("alpha", "go") while its entity row is untouched. -/
theorem c10_witness :
    Storage.update sAlphaBoth 2 eAlphaV2
        = .ok (applyOp sAlphaBoth (.updateE 2 eAlphaV2))
    ∧ mkRow eAlphaCo ∈ (applyOp sAlphaBoth (.updateE 2 eAlphaV2)).entities
    ∧ (applyOp sAlphaBoth (.updateE 2 eAlphaV2)).tags
        = sAlphaBoth.tags.filter (fun tg => decide (¬ tg.1 = eAlphaV2.id))
          ++ eAlphaV2.tags.map (fun t => (eAlphaV2.id, t)) :=
  c10_update_tags_cross_scope sAlphaBoth 2 eAlphaV2 eAlpha (mkRow eAlphaCo)
    rfl (by decide) rfl (by decide)

end Niwa
